import Mathlib

/-!
Verification development for the nitf-viz raster pipeline.

The Rust sources are shallowly embedded:
* `image_wrapper.rs` (the block decoder): bytes are naturals, the mutable
  RGBA raster is a function from coordinates to pixels, and each decode
  routine is represented by the list of pixel writes it performs, applied
  in order by a fold.
* `remap.rs` / `woof.rs` (the radiometric remap and the mosaic resampler):
  f32 values are modeled as exact real numbers plus an explicit NaN marker
  (`F32`); rounding and overflow-to-infinity are abstracted, NaN
  propagation and Rust's NaN-aware comparison/`max`/saturating-cast
  semantics are modeled explicitly.
-/

/-- One RGBA pixel, as stored in the output raster (`image::Rgba<u8>`). -/
structure Rgba where
  r : ℕ
  g : ℕ
  b : ℕ
  a : ℕ
deriving DecidableEq

/-- The error kinds of the decoder that `read_image` can return
(`VizError::Nbpp` and `VizError::Irep(unimpl)`). -/
inductive IrepKind where
  | MONO
  | RGB
  | RGBLUT
  | NODISPLY
  | other
deriving DecidableEq

inductive VizError where
  | Nbpp : VizError
  | Irep : IrepKind → VizError
deriving DecidableEq

instance {ε α : Type} [DecidableEq ε] [DecidableEq α] :
    DecidableEq (Except ε α) := fun a b =>
  match a, b with
  | .error e1, .error e2 =>
      if h : e1 = e2 then isTrue (h ▸ rfl)
      else isFalse fun hc => h (Except.error.inj hc)
  | .error _, .ok _ => isFalse fun hc => Except.noConfusion hc
  | .ok _, .error _ => isFalse fun hc => Except.noConfusion hc
  | .ok a1, .ok a2 =>
      if h : a1 = a2 then isTrue (h ▸ rfl)
      else isFalse fun hc => h (Except.ok.inj hc)

/-- Pixel coordinate `(x, y)` in the output raster. -/
abbrev Coord := ℕ × ℕ

/-- A single `image.put_pixel (x, y) value` performed by a decode routine. -/
abbrev PixelWrite := Coord × Rgba

/-- The segment metadata and raw data of `image_wrapper.rs::ImageWrapper`.
Fields the decoder never reads (pvtype, ic, abpp, imode) are omitted;
`lutd` is `bands[0].lutd`, the per-channel lookup tables of band 0;
`data` is the memory-mapped raw byte plane. -/
structure ImageWrapper where
  nrows : ℕ
  ncols : ℕ
  irep : IrepKind
  nbands : ℕ
  nbpp : ℕ
  nbpc : ℕ
  nbpr : ℕ
  nppbh : ℕ
  nppbv : ℕ
  lutd : List (List ℕ)
  data : List ℕ
deriving DecidableEq

/-- `BlockInfo { x, y, width, height }`: one tile's placement. -/
structure BlockInfo where
  x : ℕ
  y : ℕ
  width : ℕ
  height : ℕ
deriving DecidableEq

/-- The `alpha` closure of the blocked readers: values outside the
declared significant extent are transparent. -/
def alphaAt (w : ImageWrapper) (x y : ℕ) : ℕ :=
  if w.ncols ≤ x ∨ w.nrows ≤ y then 0 else 255

/-- `self.bands[0].lutd[band][idx]`; out-of-range access is defaulted to 0
(in Rust it would be an index panic, which no claim exercises). -/
def lutAt (w : ImageWrapper) (band idx : ℕ) : ℕ :=
  (w.lutd.getD band []).getD idx 0

/-- The `block_iter` vector of the blocked readers: entry `i_x + i_y * width`
holds the global coordinate `(block.x + i_x, block.y + i_y)`. -/
def blockIter (b : BlockInfo) : List Coord :=
  (List.range (b.width * b.height)).map fun p =>
    (b.x + p % b.width, b.y + p / b.width)

/-- The `block_info` vector of `read_image`: entry `i_x + i_y * nbpr` is the
tile at block column `i_x`, block row `i_y`, so entry `k` has
`i_x = k % nbpr`, `i_y = k / nbpr`. -/
def blockInfos (w : ImageWrapper) : List BlockInfo :=
  (List.range (w.nbpr * w.nbpc)).map fun k =>
    ⟨(k % w.nbpr) * w.nppbh, (k / w.nbpr) * w.nppbv, w.nppbh, w.nppbv⟩

/-- Fuel-driven core of `chunks_exact`: full chunks only, remainder dropped.
The fuel (initially the list length) only forces structural termination. -/
def chunksExactGo (n : ℕ) : ℕ → List ℕ → List (List ℕ)
  | 0, _ => []
  | fuel + 1, l =>
    if 0 < n ∧ n ≤ l.length then l.take n :: chunksExactGo n fuel (l.drop n)
    else []

/-- Rust `slice::chunks_exact(n)`: successive `n`-byte chunks, any trailing
remainder shorter than `n` is dropped.  (Rust panics when `n = 0`; the model
returns `[]`, a case no decode with 8 bits per pixel reaches.) -/
def chunksExact (n : ℕ) (l : List ℕ) : List (List ℕ) :=
  chunksExactGo n l.length l

/-- Fuel-driven core of `chunks`: like `chunks_exact` but the trailing
partial chunk is kept. -/
def chunksAllGo (n : ℕ) : ℕ → List ℕ → List (List ℕ)
  | 0, _ => []
  | fuel + 1, l =>
    if 0 < n ∧ ¬l.isEmpty then l.take n :: chunksAllGo n fuel (l.drop n)
    else []

/-- Rust `slice::chunks(n)` (used by `read_rgb` via `par_chunks(3)`):
successive `n`-byte chunks including a final partial chunk. -/
def chunksAll (n : ℕ) (l : List ℕ) : List (List ℕ) :=
  chunksAllGo n l.length l

/-- Writes of the unblocked `read_mono`: the data iterator is zipped with the
row-major pixel iterator, so sample `i` lands on pixel
`(i % ncols, i / ncols)` as opaque gray. -/
def monoWrites (data : List ℕ) (ncols nrows : ℕ) : List PixelWrite :=
  (List.range (min data.length (ncols * nrows))).map fun i =>
    ((i % ncols, i / ncols),
      ⟨data.getD i 0, data.getD i 0, data.getD i 0, 255⟩)

/-- Writes of the unblocked `read_rgb`: `par_chunks(3)` zipped with the pixel
iterator.  A trailing 1- or 2-byte chunk paired with a pixel makes Rust panic
on `data[1]`/`data[2]`; the model defaults those reads to 0 (claims only
quantify over full triplets). -/
def rgbWrites (data : List ℕ) (ncols nrows : ℕ) : List PixelWrite :=
  ((chunksAll 3 data).zip (List.range (ncols * nrows))).map fun ci =>
    ((ci.2 % ncols, ci.2 / ncols),
      ⟨ci.1.getD 0 0, ci.1.getD 1 0, ci.1.getD 2 0, 255⟩)

/-- Writes of the unblocked `read_rgb_lut`: sample `i` is an index into the
three lookup tables of band 0. -/
def rgbLutWrites (w : ImageWrapper) (ncols nrows : ℕ) : List PixelWrite :=
  (List.range (min w.data.length (ncols * nrows))).map fun i =>
    ((i % ncols, i / ncols),
      ⟨lutAt w 0 (w.data.getD i 0), lutAt w 1 (w.data.getD i 0),
        lutAt w 2 (w.data.getD i 0), 255⟩)

/-- `read_mono`: fails unless `nbpp = 8`, otherwise performs its writes. -/
def read_mono (w : ImageWrapper) (ncols nrows : ℕ) :
    Except VizError (List PixelWrite) :=
  if w.nbpp ≠ 8 then .error .Nbpp
  else .ok (monoWrites w.data ncols nrows)

/-- `read_rgb`: fails unless `nbpp = 8`, otherwise performs its writes. -/
def read_rgb (w : ImageWrapper) (ncols nrows : ℕ) :
    Except VizError (List PixelWrite) :=
  if w.nbpp ≠ 8 then .error .Nbpp
  else .ok (rgbWrites w.data ncols nrows)

/-- `read_rgb_lut`: fails unless `nbpp = 8`, otherwise performs its writes. -/
def read_rgb_lut (w : ImageWrapper) (ncols nrows : ℕ) :
    Except VizError (List PixelWrite) :=
  if w.nbpp ≠ 8 then .error .Nbpp
  else .ok (rgbLutWrites w ncols nrows)

/-- Writes of `blocked_read_mono` on one chunk: chunk bytes zipped with the
tile's `block_iter` coordinates, alpha from the significant extent. -/
def blockedWritesMono (w : ImageWrapper) (chunk : List ℕ) (b : BlockInfo) :
    List PixelWrite :=
  (chunk.zip (blockIter b)).map fun dz =>
    (dz.2, ⟨dz.1, dz.1, dz.1, alphaAt w dz.2.1 dz.2.2⟩)

/-- Writes of `blocked_read_rgb` on one chunk: `chunks_exact(3)` of the chunk
zipped with the tile coordinates. -/
def blockedWritesRgb (w : ImageWrapper) (chunk : List ℕ) (b : BlockInfo) :
    List PixelWrite :=
  ((chunksExact 3 chunk).zip (blockIter b)).map fun dz =>
    (dz.2, ⟨dz.1.getD 0 0, dz.1.getD 1 0, dz.1.getD 2 0,
      alphaAt w dz.2.1 dz.2.2⟩)

/-- Writes of `blocked_read_rgblut` on one chunk. -/
def blockedWritesLut (w : ImageWrapper) (chunk : List ℕ) (b : BlockInfo) :
    List PixelWrite :=
  (chunk.zip (blockIter b)).map fun dz =>
    (dz.2, ⟨lutAt w 0 dz.1, lutAt w 1 dz.1, lutAt w 2 dz.1,
      alphaAt w dz.2.1 dz.2.2⟩)

/-- `blocked_read_mono`: fails unless `nbpp = 8`. -/
def blocked_read_mono (w : ImageWrapper) (chunk : List ℕ) (b : BlockInfo) :
    Except VizError (List PixelWrite) :=
  if w.nbpp ≠ 8 then .error .Nbpp else .ok (blockedWritesMono w chunk b)

/-- `blocked_read_rgb`: fails unless `nbpp = 8`. -/
def blocked_read_rgb (w : ImageWrapper) (chunk : List ℕ) (b : BlockInfo) :
    Except VizError (List PixelWrite) :=
  if w.nbpp ≠ 8 then .error .Nbpp else .ok (blockedWritesRgb w chunk b)

/-- `blocked_read_rgblut`: fails unless `nbpp = 8`. -/
def blocked_read_rgblut (w : ImageWrapper) (chunk : List ℕ) (b : BlockInfo) :
    Except VizError (List PixelWrite) :=
  if w.nbpp ≠ 8 then .error .Nbpp else .ok (blockedWritesLut w chunk b)

/-- `image_wrapper.rs::ImageWrapper::read_image`, as the allocated raster
dimensions together with the ordered list of pixel writes.  The unblocked
branch is taken when `nbpr = 1 ∧ nbpc = 1`; otherwise the raw buffer is cut
into `chunks_exact` of `byte_per_px * block_width * block_height * nbands`
bytes and zipped against the row-major tile list. -/
def read_image (w : ImageWrapper) :
    Except VizError ((ℕ × ℕ) × List PixelWrite) :=
  if w.nbpp % 8 ≠ 0 then .error .Nbpp
  else
    let ncols := if w.nbpr < 2 then w.ncols else w.nbpr * w.nppbh
    let nrows := if w.nbpc < 2 then w.nrows else w.nbpc * w.nppbv
    if w.nbpr = 1 ∧ w.nbpc = 1 then
      match w.irep with
      | .MONO => (read_mono w ncols nrows).map fun ws => ((ncols, nrows), ws)
      | .RGB => (read_rgb w ncols nrows).map fun ws => ((ncols, nrows), ws)
      | .RGBLUT =>
          (read_rgb_lut w ncols nrows).map fun ws => ((ncols, nrows), ws)
      | k => .error (.Irep k)
    else
      let chunkSize := w.nbpp / 8 * w.nppbh * w.nppbv * w.nbands
      (((blockInfos w).zip (chunksExact chunkSize w.data)).foldlM
        (fun (acc : List PixelWrite) (bc : BlockInfo × List ℕ) =>
          match w.irep with
          | .MONO => (blocked_read_mono w bc.2 bc.1).map fun ws => acc ++ ws
          | .RGB => (blocked_read_rgb w bc.2 bc.1).map fun ws => acc ++ ws
          | .RGBLUT =>
              (blocked_read_rgblut w bc.2 bc.1).map fun ws => acc ++ ws
          | k => .error (.Irep k)) []).map fun ws => ((ncols, nrows), ws)

/-- Transparent black, the initial value of every pixel of
`RgbaImage::new` (the buffer is zero-initialized). -/
def transparentBlack : Rgba := ⟨0, 0, 0, 0⟩

/-- The raster as a total map from coordinates to pixels. -/
abbrev Image := Coord → Rgba

/-- Performing a list of `put_pixel` writes in order on a raster. -/
def applyWrites (ws : List PixelWrite) (img : Image) : Image :=
  ws.foldl (fun im pw => fun c => if c = pw.1 then pw.2 else im c) img

/-- The raster produced by `read_image`: a zeroed `RgbaImage` with the
decode's writes applied (unchanged when the decode fails). -/
def decodedImage (w : ImageWrapper) : Image :=
  match read_image w with
  | .ok (_, ws) => applyWrites ws (fun _ => transparentBlack)
  | .error _ => fun _ => transparentBlack

/-- The coordinates touched by some write of the decode. -/
def touched (w : ImageWrapper) : List Coord :=
  match read_image w with
  | .ok (_, ws) => ws.map Prod.fst
  | .error _ => []

/-- Fuel-driven core of `woof.rs::StackedArrays::arr_row_idx`.  The Rust
loop scans `i_arr` from 0 to `rows.len() - 1` and returns the first segment
whose cumulative row count exceeds the global row; falling off the end is
`panic!("INDEXING BROke CUZ")`, modeled as `none`. -/
def arr_row_idx_go (rows : List ℕ) (i_row : ℕ) : ℕ → ℕ → Option (ℕ × ℕ)
  | 0, _ => none
  | fuel + 1, i_arr =>
    if i_row < (rows.take (i_arr + 1)).sum then
      some (i_arr, i_row - (rows.take i_arr).sum)
    else arr_row_idx_go rows i_row fuel (i_arr + 1)

/-- `StackedArrays::arr_row_idx`: global-row to (segment, local-row)
resolution; `none` models the panic on `i_row ≥ total rows`. -/
def arr_row_idx (rows : List ℕ) (i_row : ℕ) : Option (ℕ × ℕ) :=
  arr_row_idx_go rows i_row rows.length 0

/-! ### The float model: f32 as exact reals plus NaN -/

noncomputable section

/-- An f32 value: an exact real (`fin`), or NaN.  Rounding is abstracted
(reals are exact); infinities do not arise in the modeled code paths
because `amplitude` saturates via `.clamp(f32::MIN, f32::MAX)`. -/
inductive F32 where
  | fin : ℝ → F32
  | nan : F32

def F32.add : F32 → F32 → F32
  | .fin x, .fin y => .fin (x + y)
  | _, _ => .nan

def F32.sub : F32 → F32 → F32
  | .fin x, .fin y => .fin (x - y)
  | _, _ => .nan

def F32.mul : F32 → F32 → F32
  | .fin x, .fin y => .fin (x * y)
  | _, _ => .nan

/-- f32 division; a zero divisor gives a non-finite value in Rust
(±inf or NaN), all modeled as `nan`. -/
def F32.div : F32 → F32 → F32
  | .fin x, .fin y => if y = 0 then .nan else .fin (x / y)
  | _, _ => .nan

/-- Rust `f32::max`: NaN operands are ignored unless both are NaN. -/
def F32.fmax : F32 → F32 → F32
  | .fin x, .fin y => .fin (Max.max x y)
  | .fin x, .nan => .fin x
  | .nan, .fin y => .fin y
  | .nan, .nan => .nan

/-- Rust `f32::log10`: NaN for a negative argument, -inf for zero; both
non-finite outcomes are modeled as `nan`. -/
def F32.log10 : F32 → F32
  | .fin x => if 0 < x then .fin (Real.logb 10 x) else .nan
  | .nan => .nan

def F32.isFinite : F32 → Bool
  | .fin _ => true
  | .nan => false

/-- The real payload of a finite value (0 for NaN; only used under a
finiteness hypothesis). -/
def F32.val : F32 → ℝ
  | .fin x => x
  | .nan => 0

/-- A complex sample: the two 32-bit big-endian floats of `C32Layout`
after decoding (`f32::from_be_bytes`); the byte-level layout is
abstracted to the decoded pair. -/
abbrev C32 := F32 × F32

/-- `remap.rs::amplitude`: `sqrt(re² + im²)` saturated to the finite
range.  NaN inputs propagate; the `.clamp(f32::MIN, f32::MAX)` saturation
of infinities is absorbed by the exact-real model. -/
def amplitude (z : C32) : F32 :=
  match z with
  | (.fin re, .fin im) => .fin (Real.sqrt (re ^ 2 + im ^ 2))
  | _ => .nan

/-- Rust `expr as u8` on an f32: saturating cast — NaN to 0, values below
0 to 0, values above 255 to 255, otherwise truncation toward zero. -/
def f32_as_u8 : F32 → ℕ
  | .fin v => ⌊Max.max 0 (Min.min v 255)⌋₊
  | .nan => 0

/-- Modelled from the spec: "explicitly clamping that value to [0, 255]
before truncation" — clamp-then-truncate, with the only sensible byte for
a NaN input, 0.  Stated separately from `f32_as_u8` (the Rust cast) so
the two can be compared. -/
def clampThenTruncate : F32 → ℕ
  | .fin v => ⌊Min.min (Max.max v 0) 255⌋₊
  | .nan => 0

/-- `remap.rs::Pedf`: the remap calibration `{eps, slope, constant}`. -/
structure Pedf where
  eps : F32
  slope : F32
  constant : F32

/-- `Pedf::density_call`: `slope * amplitude(z).max(eps) + constant`. -/
def Pedf.density_call (p : Pedf) (z : C32) : F32 :=
  F32.add (F32.mul p.slope (F32.fmax (amplitude z) p.eps)) p.constant

/-- The piecewise value of `Pedf::remap` before the byte cast:
`density` when `density <= 127`, else `0.5 * (density + 127)`.  A NaN
density fails the Rust comparison, takes the second branch and stays NaN. -/
def remapValue (p : Pedf) (z : C32) : F32 :=
  match p.density_call z with
  | .fin v => if v ≤ 127 then .fin v else .fin (0.5 * (v + 127))
  | .nan => .nan

/-- `Pedf::remap`: the piecewise value narrowed by `out as u8`. -/
def Pedf.remap (p : Pedf) (z : C32) : ℕ :=
  f32_as_u8 (remapValue p z)

/-- The sum of the amplitudes of the samples whose amplitude is finite
(the numerator of the §4.2 mean). -/
def finiteAmpSum (samples : List C32) : ℝ :=
  (samples.filterMap fun z =>
    match amplitude z with
    | .fin a => some a
    | .nan => none).sum

/-- `remap.rs::Pedf::init`: the mean is the fold of the
finite-amplitude filter over the plane, divided by `rows * cols`; then
`c_low = 0.8 * mean`, `c_high = 40 * c_low`,
`slope = (255 - 30) / log10(c_high / c_low)`,
`constant = 30 - slope * log10(c_low)`, `eps = 1e-5`.  (In Rust the byte
buffer is reinterpreted as a `rows × cols` array of complex pairs; the
model receives that plane as `samples`.) -/
def Pedf.init (samples : List C32) (n_rows n_cols : ℕ) : Pedf :=
  let dmin : ℝ := 30
  let mmult : ℝ := 40
  let n_elem : ℝ := ((n_rows * n_cols : ℕ) : ℝ)
  let mean : ℝ :=
    ((samples.map fun z =>
      match amplitude z with
      | .fin a => some a
      | .nan => none).foldl
        (fun a b => match b with | some v => a + v | none => a) 0) / n_elem
  let c_l := 0.8 * mean
  let c_h := mmult * c_l
  let slope := (255 - dmin) / Real.logb 10 (c_h / c_l)
  let constant := dmin - slope * Real.logb 10 c_l
  { eps := .fin 1e-5, slope := .fin slope, constant := .fin constant }

/-- Rust `f32::fract()`: `x - trunc(x)` (truncation toward zero). -/
def fract (x : ℝ) : ℝ :=
  if 0 ≤ x then x - ⌊x⌋ else x - ⌈x⌉

/-- Case 1 of the `woof.rs::run` down-sampler (both axes cross a source
boundary): arithmetic mean of the remapped samples of the covered box. -/
def boxBoth (pedf : Pedf) (stack : ℕ → ℕ → C32)
    (bottom top left right : ℕ) : ℕ :=
  let n : ℝ := (((top - bottom) * (right - left) : ℕ) : ℝ)
  let res : ℝ :=
    ((List.range (top - bottom)).map fun di =>
      ((List.range (right - left)).map fun dj =>
        ((pedf.remap (stack (bottom + di) (left + dj)) : ℕ) : ℝ)).sum).sum
  f32_as_u8 (.fin (res / n))

/-- Case 2 (only rows cross a boundary): blend of the two bounding
columns' partial sums, weighted by horizontal fractional coverage. -/
def boxRows (pedf : Pedf) (stack : ℕ → ℕ → C32)
    (bottom top left : ℕ) (leftf rightf : ℝ) : ℕ :=
  let f : ℝ := (fract leftf + fract rightf) / 2
  let sum_left : ℕ :=
    ((List.range (top - bottom)).map fun di =>
      pedf.remap (stack (bottom + di) left)).sum
  let sum_right : ℕ :=
    ((List.range (top - bottom)).map fun di =>
      pedf.remap (stack (bottom + di) (left + 1))).sum
  let fact_right := f / (((top - bottom : ℕ) : ℝ))
  let fact_left := (1 - f) / (((top - bottom : ℕ) : ℝ))
  f32_as_u8 (.fin (fact_left * (sum_left : ℝ) + fact_right * (sum_right : ℝ)))

/-- Case 3 (only columns cross a boundary): symmetric blend of the two
bounding rows' partial sums. -/
def boxCols (pedf : Pedf) (stack : ℕ → ℕ → C32)
    (bottom left right : ℕ) (topf bottomf : ℝ) : ℕ :=
  let f : ℝ := (fract topf + fract bottomf) / 2
  let sum_bot : ℕ :=
    ((List.range (right - left)).map fun dj =>
      pedf.remap (stack bottom (left + dj))).sum
  let sum_top : ℕ :=
    ((List.range (right - left)).map fun dj =>
      pedf.remap (stack (bottom + 1) (left + dj))).sum
  let fact_top := f / (((right - left : ℕ) : ℝ))
  let fact_bot := (1 - f) / (((right - left : ℕ) : ℝ))
  f32_as_u8 (.fin (fact_bot * (sum_bot : ℝ) + fact_top * (sum_top : ℝ)))

/-- Case 4 (neither axis crosses a boundary): bilinear blend of the four
surrounding remapped samples. -/
def boxNeither (pedf : Pedf) (stack : ℕ → ℕ → C32)
    (bottom left : ℕ) (topf bottomf leftf rightf : ℝ) : ℕ :=
  let frac_h : ℝ := (fract topf + fract bottomf) / 2
  let frac_v : ℝ := (fract leftf + fract rightf) / 2
  let k_bl := pedf.remap (stack bottom left)
  let k_tl := pedf.remap (stack (bottom + 1) left)
  let k_br := pedf.remap (stack bottom (left + 1))
  let k_tr := pedf.remap (stack (bottom + 1) (left + 1))
  let fact_tr := frac_v * frac_h
  let fact_tl := frac_v * (1 - frac_h)
  let fact_br := (1 - frac_v) * frac_h
  let fact_bl := (1 - frac_v) * (1 - frac_h)
  f32_as_u8 (.fin (fact_br * (k_br : ℝ) + fact_tr * (k_tr : ℝ)
    + fact_bl * (k_bl : ℝ) + fact_tl * (k_tl : ℝ)))

/-- The per-output-pixel body of the `woof.rs::run` down-sampling loop.
`stack` is the stitched mosaic as a total index map (out-of-range access
panics in Rust and is never exercised by the claims); the bounds are the
saturating `ceil as u32` casts with the source's clamps. -/
def downsamplePixel (pedf : Pedf) (stack : ℕ → ℕ → C32)
    (n_rows n_cols : ℕ) (xRat yRat : ℝ) (outy outx : ℕ) : ℕ :=
  let bottomf : ℝ := (outy : ℝ) * yRat
  let topf : ℝ := bottomf + yRat
  let bottom : ℕ := Min.min ⌈bottomf⌉₊ (n_rows - 1)
  let top : ℕ := Min.min (Max.max ⌈topf⌉₊ bottom) n_rows
  let leftf : ℝ := (outx : ℝ) * xRat
  let rightf : ℝ := leftf + xRat
  let left : ℕ := Min.min ⌈leftf⌉₊ (n_cols - 1)
  let right : ℕ := Min.min (Max.max ⌈rightf⌉₊ left) n_cols
  if bottom ≠ top ∧ left ≠ right then
    boxBoth pedf stack bottom top left right
  else if bottom ≠ top then
    boxRows pedf stack bottom top left leftf rightf
  else if left ≠ right then
    boxCols pedf stack bottom left right topf bottomf
  else
    boxNeither pedf stack bottom left topf bottomf leftf rightf

/-- One segment's term in the `woof.rs::run` mean: the f32 sum of all
amplitudes of the segment (no finiteness filter) divided by its element
count. -/
def segMeanTerm (seg : List C32) : F32 :=
  F32.div ((seg.map amplitude).foldl F32.add (.fin 0)) (.fin (seg.length : ℝ))

/-- The mean computed by `woof.rs::run`: the average of the per-segment
means (not the pooled mean over all samples). -/
def woofMean (segs : List (List C32)) : F32 :=
  F32.div (segs.foldl (fun acc s => F32.add acc (segMeanTerm s)) (.fin 0))
    (.fin (segs.length : ℝ))

/-- The calibration built in `woof.rs::run` from its mean, with the same
formulas as `Pedf::init` but in f32 arithmetic:
`c_l = 0.8 * mean`, `c_h = 40 * c_l`,
`slope = (255 - 30) / log10(c_h / c_l)`,
`constant = 30 - slope * log10(c_l)`, `eps = 1e-5`. -/
def woofCalibration (segs : List (List C32)) : Pedf :=
  let mean := woofMean segs
  let c_l := F32.mul (.fin 0.8) mean
  let c_h := F32.mul (.fin 40) c_l
  let slope := F32.div (.fin (255 - 30)) (F32.log10 (F32.div c_h c_l))
  let constant := F32.sub (.fin 30) (F32.mul slope (F32.log10 c_l))
  { eps := .fin 1e-5, slope := slope, constant := constant }

/-- The resampled output grid of `woof.rs::run`: the calibration is built
once from `woofMean` and every output cell is computed from it and the
shared read-only mosaic. -/
def woofRunGrid (segs : List (List C32)) (stack : ℕ → ℕ → C32)
    (n_rows n_cols : ℕ) (xRat yRat : ℝ) (out_rows out_cols : ℕ) :
    List (List ℕ) :=
  let pedf := woofCalibration segs
  (List.range out_rows).map fun oy =>
    (List.range out_cols).map fun ox =>
      downsamplePixel pedf stack n_rows n_cols xRat yRat oy ox

/-- The closed form of one segment's `woof.rs` mean term, for stating the
mean-of-means characterization. -/
def segMeanVal (seg : List C32) : ℝ :=
  ((seg.map fun z => (amplitude z).val).sum) / (seg.length : ℝ)

/-- Modelled from the spec (§4.2): the combined mean over a mosaic — the
sum of amplitude over all samples of all segments pooled together whose
amplitude is finite, divided by the total sample count. -/
def specCombinedMean (segs : List (List C32)) : ℝ :=
  finiteAmpSum segs.flatten / (((segs.map List.length).sum : ℕ) : ℝ)

end

/-! ### Generic lemmas about the write-list semantics -/

theorem applyWrites_cons (pw : PixelWrite) (tl : List PixelWrite)
    (img : Image) :
    applyWrites (pw :: tl) img =
      applyWrites tl (fun c => if c = pw.1 then pw.2 else img c) := rfl

theorem applyWrites_not_mem :
    ∀ (ws : List PixelWrite) (img : Image) (xy : Coord),
    xy ∉ ws.map Prod.fst → applyWrites ws img xy = img xy := by
  intro ws
  induction ws with
  | nil => intro img xy _; rfl
  | cons pw tl ih =>
      intro img xy h
      simp only [List.map_cons, List.mem_cons, not_or] at h
      rw [applyWrites_cons, ih _ _ h.2]
      simp [h.1]

theorem applyWrites_get_unique :
    ∀ (ws : List PixelWrite) (n : ℕ) (img : Image) (xy : Coord) (v : Rgba),
    ws.get? n = some (xy, v) →
    (∀ m e, ws.get? m = some e → e.1 = xy → m = n) →
    applyWrites ws img xy = v := by
  intro ws
  induction ws with
  | nil => intro n img xy v h _; simp at h
  | cons pw tl ih =>
      intro n img xy v h huniq
      cases n with
      | zero =>
          rw [List.get?_cons_zero] at h
          injection h with h'
          have hnot : xy ∉ tl.map Prod.fst := by
            intro hmem
            obtain ⟨e, he, hfst⟩ := List.mem_map.1 hmem
            obtain ⟨m, hm⟩ := List.mem_iff_get?.1 he
            have := huniq (m + 1) e (by simpa using hm) hfst
            omega
          rw [applyWrites_cons, applyWrites_not_mem _ _ _ hnot]
          subst h'
          simp
      | succ m =>
          have hm : tl.get? m = some (xy, v) := by simpa using h
          rw [applyWrites_cons]
          refine ih m _ xy v hm ?_
          intro m' e h' hf
          have := huniq (m' + 1) e (by simpa using h') hf
          omega

theorem rowMajor_inj (w i j : ℕ) (h1 : i % w = j % w) (h2 : i / w = j / w) :
    i = j := by
  calc i = w * (i / w) + i % w := (Nat.div_add_mod i w).symm
    _ = w * (j / w) + j % w := by rw [h1, h2]
    _ = j := Nat.div_add_mod j w

theorem chunksExactGo_get? (n : ℕ) (hn : 0 < n) :
    ∀ (fuel : ℕ) (l : List ℕ) (k : ℕ), l.length ≤ fuel →
    (chunksExactGo n fuel l).get? k =
      if (k + 1) * n ≤ l.length then some ((l.drop (k * n)).take n)
      else none := by
  intro fuel
  induction fuel with
  | zero =>
      intro l k hl
      have h0 : l.length = 0 := Nat.le_zero.1 hl
      have hkn : n ≤ (k + 1) * n := Nat.le_mul_of_pos_left n (Nat.succ_pos k)
      have hfalse : ¬ (k + 1) * n ≤ l.length := by omega
      simp [chunksExactGo, hfalse]
  | succ fuel ih =>
      intro l k hl
      rw [chunksExactGo]
      by_cases hc : 0 < n ∧ n ≤ l.length
      · rw [if_pos hc]
        cases k with
        | zero =>
            rw [List.get?_cons_zero, if_pos (by simpa using hc.2)]
            simp
        | succ k =>
            rw [List.get?_cons_succ,
              ih (l.drop n) k (by simp only [List.length_drop]; omega)]
            have hsucc : ∀ m : ℕ, (m + 1) * n = m * n + n :=
              fun m => Nat.succ_mul m n
            have hdl : (l.drop n).length = l.length - n := List.length_drop n l
            have hdrops : (l.drop n).drop (k * n) = l.drop ((k + 1) * n) := by
              rw [List.drop_drop, hsucc k, Nat.add_comm]
            by_cases h2 : (k + 1) * n ≤ (l.drop n).length
            · rw [if_pos h2, if_pos (by rw [hsucc (k + 1)]; omega)]
              rw [hdrops]
            · rw [if_neg h2, if_neg (by rw [hsucc (k + 1)]; omega)]
      · rw [if_neg hc]
        have hlen : l.length < n := by
          rcases Nat.lt_or_ge l.length n with h | h
          · exact h
          · exact absurd ⟨hn, h⟩ hc
        have hkn : n ≤ (k + 1) * n := Nat.le_mul_of_pos_left n (Nat.succ_pos k)
        simp only [List.get?_eq_getElem?, List.getElem?_nil]
        rw [if_neg (by omega)]

theorem chunksExact_get? (n : ℕ) (hn : 0 < n) (l : List ℕ) (k : ℕ) :
    (chunksExact n l).get? k =
      if (k + 1) * n ≤ l.length then some ((l.drop (k * n)).take n)
      else none :=
  chunksExactGo_get? n hn l.length l k le_rfl

theorem chunksAllGo_get? (n : ℕ) (hn : 0 < n) :
    ∀ (fuel : ℕ) (l : List ℕ) (k : ℕ), l.length ≤ fuel →
    (chunksAllGo n fuel l).get? k =
      if k * n < l.length then some ((l.drop (k * n)).take n)
      else none := by
  intro fuel
  induction fuel with
  | zero =>
      intro l k hl
      have h0 : l.length = 0 := Nat.le_zero.1 hl
      simp [chunksAllGo, h0]
  | succ fuel ih =>
      intro l k hl
      rw [chunksAllGo]
      by_cases hc : 0 < n ∧ ¬l.isEmpty
      · rw [if_pos hc]
        cases k with
        | zero =>
            rw [List.get?_cons_zero]
            have : 0 * n < l.length := by
              have := hc.2
              rw [List.isEmpty_iff] at this
              have : l.length ≠ 0 := fun h => this (List.length_eq_zero.1 h)
              omega
            rw [if_pos this]
            simp
        | succ k =>
            rw [List.get?_cons_succ,
              ih (l.drop n) k (by simp only [List.length_drop]; omega)]
            have hsucc : ∀ m : ℕ, (m + 1) * n = m * n + n :=
              fun m => Nat.succ_mul m n
            have hdrops : (l.drop n).drop (k * n) = l.drop ((k + 1) * n) := by
              rw [List.drop_drop, hsucc k, Nat.add_comm]
            simp only [List.length_drop]
            by_cases h2 : k * n < l.length - n
            · rw [if_pos h2, if_pos (by have := hsucc k; omega)]
              rw [hdrops]
            · rw [if_neg h2, if_neg (by have := hsucc k; omega)]
      · rw [if_neg hc]
        have hemp : l.isEmpty := by
          by_contra hne
          exact hc ⟨hn, hne⟩
        rw [List.isEmpty_iff] at hemp
        simp [hemp]

theorem chunksAll_get? (n : ℕ) (hn : 0 < n) (l : List ℕ) (k : ℕ) :
    (chunksAll n l).get? k =
      if k * n < l.length then some ((l.drop (k * n)).take n)
      else none :=
  chunksAllGo_get? n hn l.length l k le_rfl

theorem sum_map_const_real (m : ℕ) (c : ℝ) :
    ((List.range m).map fun _ => c).sum = m * c := by
  induction m with
  | zero => simp
  | succ m ih =>
      rw [List.range_succ]
      simp only [List.map_append, List.sum_append, ih, List.map_cons,
        List.map_nil, List.sum_cons, List.sum_nil]
      push_cast
      ring

theorem sum_map_const_nat (m k : ℕ) :
    ((List.range m).map fun _ => k).sum = m * k := by
  induction m with
  | zero => simp
  | succ m ih =>
      rw [List.range_succ]
      simp only [List.map_append, List.sum_append, ih, List.map_cons,
        List.map_nil, List.sum_cons, List.sum_nil]
      rw [Nat.succ_mul]
      omega

/-! ### Lemmas about the float model -/

theorem f32_as_u8_natCast (k : ℕ) (hk : k ≤ 255) :
    f32_as_u8 (.fin (k : ℝ)) = k := by
  have h1 : Min.min ((k : ℝ)) 255 = (k : ℝ) := by
    rw [min_eq_left]
    exact_mod_cast hk
  have h2 : Max.max (0 : ℝ) ((k : ℝ)) = (k : ℝ) := by
    rw [max_eq_right]
    positivity
  rw [f32_as_u8, h1, h2, Nat.floor_natCast]

theorem f32_as_u8_le (x : F32) : f32_as_u8 x ≤ 255 := by
  cases x with
  | fin v =>
      rw [f32_as_u8]
      have h : Max.max (0 : ℝ) (Min.min v 255) ≤ 255 :=
        max_le (by norm_num) (min_le_right _ _)
      calc ⌊Max.max (0 : ℝ) (Min.min v 255)⌋₊ ≤ ⌊(255 : ℝ)⌋₊ :=
            Nat.floor_le_floor h
        _ = 255 := by norm_num
  | nan => simp [f32_as_u8]

theorem remap_le_255 (p : Pedf) (z : C32) : p.remap z ≤ 255 :=
  f32_as_u8_le _

theorem f32_as_u8_eq_clampThenTruncate (x : F32) :
    f32_as_u8 x = clampThenTruncate x := by
  cases x with
  | fin v =>
      rw [f32_as_u8, clampThenTruncate]
      congr 1
      rw [max_comm, max_min_distrib_right]
      congr 1
      rw [max_eq_left]
      norm_num
  | nan => rfl

theorem foldl_addSome (g : C32 → Option ℝ) :
    ∀ (l : List C32) (s : ℝ),
    ((l.map g).foldl (fun a b => match b with
      | some v => a + v
      | none => a) s) = s + (l.filterMap g).sum := by
  intro l
  induction l with
  | nil => intro s; simp
  | cons z tl ih =>
      intro s
      rw [List.map_cons, List.foldl_cons, List.filterMap_cons]
      cases hz : g z with
      | none => rw [ih]
      | some v =>
          rw [ih, List.sum_cons]
          ring

theorem finiteAmpSum_uniform (a : ℝ) :
    ∀ (l : List C32), (∀ z ∈ l, amplitude z = .fin a) →
    finiteAmpSum l = l.length * a := by
  intro l
  induction l with
  | nil => intro _; simp [finiteAmpSum]
  | cons z tl ih =>
      intro h
      have hz : amplitude z = .fin a := h z (List.mem_cons_self z tl)
      have htl := ih fun z' hz' => h z' (List.mem_cons_of_mem z hz')
      rw [finiteAmpSum, List.filterMap_cons, hz]
      rw [finiteAmpSum] at htl
      simp only [List.sum_cons, htl, List.length_cons]
      push_cast
      ring

theorem foldl_F32add_fin :
    ∀ (l : List F32), (∀ x ∈ l, x.isFinite = true) →
    ∀ a : ℝ, l.foldl F32.add (.fin a) = .fin (a + (l.map F32.val).sum) := by
  intro l
  induction l with
  | nil => intro _ a; simp
  | cons x tl ih =>
      intro h a
      have hx : x.isFinite = true := h x (List.mem_cons_self x tl)
      obtain ⟨v, hv⟩ : ∃ v, x = .fin v := by
        cases x with
        | fin v => exact ⟨v, rfl⟩
        | nan => simp [F32.isFinite] at hx
      subst hv
      rw [List.foldl_cons]
      have : F32.add (.fin a) (.fin v) = .fin (a + v) := rfl
      rw [this, ih (fun y hy => h y (List.mem_cons_of_mem _ hy)) (a + v)]
      simp only [List.map_cons, List.sum_cons, F32.val]
      rw [add_assoc]

theorem foldl_F32add_term (f : List C32 → F32) :
    ∀ (l : List (List C32)), (∀ s ∈ l, (f s).isFinite = true) →
    ∀ a : ℝ,
    l.foldl (fun acc s => F32.add acc (f s)) (.fin a) =
      .fin (a + (l.map fun s => (f s).val).sum) := by
  intro l
  induction l with
  | nil => intro _ a; simp
  | cons s tl ih =>
      intro h a
      have hs : (f s).isFinite = true := h s (List.mem_cons_self s tl)
      obtain ⟨v, hv⟩ : ∃ v, f s = .fin v := by
        cases hfs : f s with
        | fin v => exact ⟨v, rfl⟩
        | nan => rw [hfs] at hs; simp [F32.isFinite] at hs
      rw [List.foldl_cons]
      have : F32.add (.fin a) (f s) = .fin (a + v) := by rw [hv]; rfl
      rw [this, ih (fun y hy => h y (List.mem_cons_of_mem _ hy)) (a + v)]
      simp only [List.map_cons, List.sum_cons, hv, F32.val]
      rw [add_assoc]

/-! ### Structural lemmas about the decoder -/

theorem exceptMap_ok {ε α β : Type} (f : α → β) (e : Except ε α) (b : β)
    (h : e.map f = .ok b) : ∃ a, e = .ok a ∧ b = f a := by
  cases e with
  | error _ => simp [Except.map] at h
  | ok a =>
      refine ⟨a, rfl, ?_⟩
      have : (Except.ok (f a) : Except ε β) = .ok b := h
      exact (Except.ok.inj this).symm

theorem get?_range_of_some {n m j : ℕ}
    (h : (List.range n).get? m = some j) : j = m ∧ m < n := by
  by_cases hm : m < n
  · rw [List.get?_range hm] at h
    exact ⟨(Option.some.inj h).symm, hm⟩
  · rw [List.get?_eq_none.2 (by simpa [List.length_range] using hm)] at h
    exact absurd h (by simp)

theorem get?_eq_getD_of_lt (l : List ℕ) (n : ℕ) (h : n < l.length) :
    l.get? n = some (l.getD n 0) := by
  cases hc : l.get? n with
  | none => exact absurd (List.get?_eq_none.1 hc) (by omega)
  | some v => rw [List.getD_eq_get?, hc]; rfl

theorem take_drop_getD (l : List ℕ) (a j n : ℕ) (hj : j < n) :
    ((l.drop a).take n).getD j 0 = l.getD (a + j) 0 := by
  rw [List.getD_eq_get?, List.getD_eq_get?, List.get?_take hj,
    List.get?_drop]

theorem read_image_unblocked (w : ImageWrapper) (hpr : w.nbpr = 1)
    (hpc : w.nbpc = 1) (h8 : w.nbpp = 8) :
    read_image w =
      match w.irep with
      | .MONO => .ok ((w.ncols, w.nrows), monoWrites w.data w.ncols w.nrows)
      | .RGB => .ok ((w.ncols, w.nrows), rgbWrites w.data w.ncols w.nrows)
      | .RGBLUT => .ok ((w.ncols, w.nrows), rgbLutWrites w w.ncols w.nrows)
      | k => .error (.Irep k) := by
  rw [read_image]
  rw [if_neg (by rw [h8]; norm_num)]
  rw [if_pos ⟨hpr, hpc⟩]
  rw [if_pos (show w.nbpr < 2 by rw [hpr]; norm_num)]
  rw [if_pos (show w.nbpc < 2 by rw [hpc]; norm_num)]
  cases w.irep with
  | MONO =>
      rw [read_mono, if_neg (by rw [h8]; norm_num)]
      rfl
  | RGB =>
      rw [read_rgb, if_neg (by rw [h8]; norm_num)]
      rfl
  | RGBLUT =>
      rw [read_rgb_lut, if_neg (by rw [h8]; norm_num)]
      rfl
  | NODISPLY => rfl
  | other => rfl

theorem monoWrites_get? (data : List ℕ) (ncols nrows i : ℕ)
    (hi : i < min data.length (ncols * nrows)) :
    (monoWrites data ncols nrows).get? i =
      some ((i % ncols, i / ncols),
        ⟨data.getD i 0, data.getD i 0, data.getD i 0, 255⟩) := by
  rw [monoWrites, List.get?_map, List.get?_range hi]
  rfl

theorem monoWrites_shape (data : List ℕ) (ncols nrows m : ℕ)
    (e : PixelWrite) (h : (monoWrites data ncols nrows).get? m = some e) :
    e.1 = (m % ncols, m / ncols) := by
  rw [monoWrites, List.get?_map] at h
  cases hr : (List.range (min data.length (ncols * nrows))).get? m with
  | none => rw [hr] at h; exact absurd h (by simp)
  | some j =>
      obtain ⟨rfl, _⟩ := get?_range_of_some hr
      rw [hr] at h
      have := Option.some.inj h
      rw [← this]

theorem rgbLutWrites_get? (w : ImageWrapper) (ncols nrows i : ℕ)
    (hi : i < min w.data.length (ncols * nrows)) :
    (rgbLutWrites w ncols nrows).get? i =
      some ((i % ncols, i / ncols),
        ⟨lutAt w 0 (w.data.getD i 0), lutAt w 1 (w.data.getD i 0),
          lutAt w 2 (w.data.getD i 0), 255⟩) := by
  rw [rgbLutWrites, List.get?_map, List.get?_range hi]
  rfl

theorem rgbLutWrites_shape (w : ImageWrapper) (ncols nrows m : ℕ)
    (e : PixelWrite) (h : (rgbLutWrites w ncols nrows).get? m = some e) :
    e.1 = (m % ncols, m / ncols) := by
  rw [rgbLutWrites, List.get?_map] at h
  cases hr : (List.range (min w.data.length (ncols * nrows))).get? m with
  | none => rw [hr] at h; exact absurd h (by simp)
  | some j =>
      obtain ⟨rfl, _⟩ := get?_range_of_some hr
      rw [hr] at h
      have := Option.some.inj h
      rw [← this]

theorem rgbWrites_get? (data : List ℕ) (ncols nrows i : ℕ)
    (h3 : 3 * i + 2 < data.length) (hi : i < ncols * nrows) :
    (rgbWrites data ncols nrows).get? i =
      some ((i % ncols, i / ncols),
        ⟨data.getD (3 * i) 0, data.getD (3 * i + 1) 0,
          data.getD (3 * i + 2) 0, 255⟩) := by
  have hchunk : (chunksAll 3 data).get? i =
      some ((data.drop (i * 3)).take 3) := by
    rw [chunksAll_get? 3 (by norm_num), if_pos (by omega)]
  have hzip : ((chunksAll 3 data).zip
      (List.range (ncols * nrows))).get? i =
      some ((data.drop (i * 3)).take 3, i) :=
    (List.get?_zip_eq_some _ _ _ _).2 ⟨hchunk, List.get?_range hi⟩
  rw [rgbWrites, List.get?_map, hzip]
  simp only [Option.map_some']
  have e0 := take_drop_getD data (i * 3) 0 3 (by norm_num)
  have e1 := take_drop_getD data (i * 3) 1 3 (by norm_num)
  have e2 := take_drop_getD data (i * 3) 2 3 (by norm_num)
  rw [show i * 3 + 0 = 3 * i by ring] at e0
  rw [show i * 3 + 1 = 3 * i + 1 by ring] at e1
  rw [show i * 3 + 2 = 3 * i + 2 by ring] at e2
  rw [e0, e1, e2]

theorem rgbWrites_shape (data : List ℕ) (ncols nrows m : ℕ)
    (e : PixelWrite) (h : (rgbWrites data ncols nrows).get? m = some e) :
    e.1 = (m % ncols, m / ncols) := by
  rw [rgbWrites, List.get?_map] at h
  cases hz : ((chunksAll 3 data).zip (List.range (ncols * nrows))).get? m with
  | none => rw [hz] at h; exact absurd h (by simp)
  | some dz =>
      obtain ⟨_, hr⟩ := (List.get?_zip_eq_some _ _ _ _).1 hz
      obtain ⟨h2, _⟩ := get?_range_of_some hr
      rw [hz] at h
      have hbeta := Option.some.inj h
      rw [← hbeta]
      show (dz.2 % ncols, dz.2 / ncols) = (m % ncols, m / ncols)
      rw [h2]

/-! ### Claim theorems -/

/-- C2: the mosaic cumulative-sum lookup resolves in-range global rows to
the correct (segment, local row): with row counts [100, 50, 30], row 120
resolves to (1, 20) and row 179 to (2, 29).  On row 180 (the total row
count) the code does NOT return a recoverable RowOutOfRange error: the
loop falls through to an unrecoverable abort
(the Rust source's `panic!`, modeled as `none`). -/
theorem c2_mosaic_resolve_panics :
    arr_row_idx [100, 50, 30] 120 = some (1, 20) ∧
    arr_row_idx [100, 50, 30] 179 = some (2, 29) ∧
    arr_row_idx [100, 50, 30] 180 = none := by decide

/-- C4: a successful decode allocates the raster with width equal to the
significant column count when blocks-per-row < 2 and
`nbpr * nppbh` otherwise, and symmetrically for the height. -/
theorem c4_raster_dims (w : ImageWrapper) (dims : ℕ × ℕ)
    (ws : List PixelWrite) (h : read_image w = .ok (dims, ws)) :
    dims = (if w.nbpr < 2 then w.ncols else w.nbpr * w.nppbh,
            if w.nbpc < 2 then w.nrows else w.nbpc * w.nppbv) := by
  rw [read_image] at h
  by_cases h8 : w.nbpp % 8 ≠ 0
  · rw [if_pos h8] at h
    exact absurd h (by simp)
  rw [if_neg h8] at h
  simp only at h
  by_cases hub : w.nbpr = 1 ∧ w.nbpc = 1
  · rw [if_pos hub] at h
    cases hir : w.irep with
    | MONO =>
        rw [hir] at h
        obtain ⟨a, _, hb⟩ := exceptMap_ok _ _ _ h
        have := congrArg Prod.fst hb
        simpa using this
    | RGB =>
        rw [hir] at h
        obtain ⟨a, _, hb⟩ := exceptMap_ok _ _ _ h
        have := congrArg Prod.fst hb
        simpa using this
    | RGBLUT =>
        rw [hir] at h
        obtain ⟨a, _, hb⟩ := exceptMap_ok _ _ _ h
        have := congrArg Prod.fst hb
        simpa using this
    | NODISPLY => rw [hir] at h; exact absurd h (by simp)
    | other => rw [hir] at h; exact absurd h (by simp)
  · rw [if_neg hub] at h
    obtain ⟨a, _, hb⟩ := exceptMap_ok _ _ _ h
    have := congrArg Prod.fst hb
    simpa using this

/-- C4 witness: a 2 x 3 blocked mono descriptor with 4 x 5 pixel tiles is
allocated at the tiled extent (8, 15), not the significant (100, 200). -/
theorem c4_raster_dims_witness :
    read_image (ImageWrapper.mk 200 100 .MONO 1 8 3 2 4 5 [] []) =
      .ok ((8, 15), []) ∧
    ((8, 15) : ℕ × ℕ) =
      (if (ImageWrapper.mk 200 100 .MONO 1 8 3 2 4 5 [] []).nbpr < 2
        then (ImageWrapper.mk 200 100 .MONO 1 8 3 2 4 5 [] []).ncols
        else (ImageWrapper.mk 200 100 .MONO 1 8 3 2 4 5 [] []).nbpr *
          (ImageWrapper.mk 200 100 .MONO 1 8 3 2 4 5 [] []).nppbh,
       if (ImageWrapper.mk 200 100 .MONO 1 8 3 2 4 5 [] []).nbpc < 2
        then (ImageWrapper.mk 200 100 .MONO 1 8 3 2 4 5 [] []).nrows
        else (ImageWrapper.mk 200 100 .MONO 1 8 3 2 4 5 [] []).nbpc *
          (ImageWrapper.mk 200 100 .MONO 1 8 3 2 4 5 [] []).nppbv) :=
  ⟨by decide,
    c4_raster_dims (ImageWrapper.mk 200 100 .MONO 1 8 3 2 4 5 [] [])
      (8, 15) [] (by decide)⟩

/-- C10: any pixel of the allocated raster that no decode write touches
stays transparent black (0, 0, 0, 0). -/
theorem c10_untouched_pixels_transparent (w : ImageWrapper) (xy : Coord)
    (h : xy ∉ touched w) : decodedImage w xy = transparentBlack := by
  unfold decodedImage
  cases hr : read_image w with
  | error e => rfl
  | ok r =>
      obtain ⟨dims, ws⟩ := r
      have hnm : xy ∉ ws.map Prod.fst := by
        intro hmem
        apply h
        rw [touched, hr]
        exact hmem
      exact applyWrites_not_mem ws _ xy hnm

theorem blockedWritesMono_mem (w : ImageWrapper) (chunk : List ℕ)
    (b : BlockInfo) (e : PixelWrite) (h : e ∈ blockedWritesMono w chunk b) :
    e.2.a = alphaAt w e.1.1 e.1.2 ∧ e.1 ∈ blockIter b := by
  obtain ⟨dz, hdz, rfl⟩ := List.mem_map.1 h
  exact ⟨rfl, (List.of_mem_zip hdz).2⟩

theorem blockedWritesRgb_mem (w : ImageWrapper) (chunk : List ℕ)
    (b : BlockInfo) (e : PixelWrite) (h : e ∈ blockedWritesRgb w chunk b) :
    e.2.a = alphaAt w e.1.1 e.1.2 ∧ e.1 ∈ blockIter b := by
  obtain ⟨dz, hdz, rfl⟩ := List.mem_map.1 h
  exact ⟨rfl, (List.of_mem_zip hdz).2⟩

theorem blockedWritesLut_mem (w : ImageWrapper) (chunk : List ℕ)
    (b : BlockInfo) (e : PixelWrite) (h : e ∈ blockedWritesLut w chunk b) :
    e.2.a = alphaAt w e.1.1 e.1.2 ∧ e.1 ∈ blockIter b := by
  obtain ⟨dz, hdz, rfl⟩ := List.mem_map.1 h
  exact ⟨rfl, (List.of_mem_zip hdz).2⟩

theorem blockIter_coord (b : BlockInfo) (xy : Coord)
    (h : xy ∈ blockIter b) : xy.1 < b.x + b.width := by
  obtain ⟨p, hp, rfl⟩ := List.mem_map.1 h
  have hp' := List.mem_range.1 hp
  have hw : 0 < b.width := by
    rcases Nat.eq_zero_or_pos b.width with h0 | h0
    · rw [h0] at hp'
      simp at hp'
    · exact h0
  have := Nat.mod_lt p hw
  simpa using this

theorem blockInfos_mem_bound (w : ImageWrapper) (b : BlockInfo)
    (h : b ∈ blockInfos w) : b.x + b.width ≤ w.nbpr * w.nppbh := by
  obtain ⟨k, hk, rfl⟩ := List.mem_map.1 h
  have hk' := List.mem_range.1 hk
  have hpr : 0 < w.nbpr := by
    rcases Nat.eq_zero_or_pos w.nbpr with h0 | h0
    · rw [h0] at hk'
      simp at hk'
    · exact h0
  have hmod : k % w.nbpr < w.nbpr := Nat.mod_lt k hpr
  show (k % w.nbpr) * w.nppbh + w.nppbh ≤ w.nbpr * w.nppbh
  calc (k % w.nbpr) * w.nppbh + w.nppbh = (k % w.nbpr + 1) * w.nppbh := by
        rw [Nat.succ_mul]
    _ ≤ w.nbpr * w.nppbh := Nat.mul_le_mul_right _ (by omega)

/-- C3: in the blocked decode, every written pixel's alpha is 0 exactly
when its global coordinate lies outside the declared significant extent
(column ≥ ncols or row ≥ nrows) and 255 otherwise, for all three
representations; in particular, when the tiled width stays within the
significant columns, a pixel's alpha is 255 below the significant row
count and 0 at or above it. -/
theorem c3_blocked_alpha (w : ImageWrapper) (chunk : List ℕ) (b : BlockInfo)
    (e : PixelWrite) :
    (e ∈ blockedWritesMono w chunk b →
      e.2.a = if w.ncols ≤ e.1.1 ∨ w.nrows ≤ e.1.2 then 0 else 255) ∧
    (e ∈ blockedWritesRgb w chunk b →
      e.2.a = if w.ncols ≤ e.1.1 ∨ w.nrows ≤ e.1.2 then 0 else 255) ∧
    (e ∈ blockedWritesLut w chunk b →
      e.2.a = if w.ncols ≤ e.1.1 ∨ w.nrows ≤ e.1.2 then 0 else 255) ∧
    (w.nbpr * w.nppbh ≤ w.ncols → b ∈ blockInfos w →
      e ∈ blockedWritesMono w chunk b →
      (e.1.2 < w.nrows → e.2.a = 255) ∧
      (w.nrows ≤ e.1.2 → e.2.a = 0)) := by
  refine ⟨?_, ?_, ?_, ?_⟩
  · intro h
    rw [(blockedWritesMono_mem w chunk b e h).1]
    rfl
  · intro h
    rw [(blockedWritesRgb_mem w chunk b e h).1]
    rfl
  · intro h
    rw [(blockedWritesLut_mem w chunk b e h).1]
    rfl
  · intro hcols hbmem hmem
    obtain ⟨ha, hcoord⟩ := blockedWritesMono_mem w chunk b e hmem
    have hx := blockIter_coord b e.1 hcoord
    have hb := blockInfos_mem_bound w b hbmem
    have hxlt : e.1.1 < w.ncols := lt_of_lt_of_le hx (le_trans hb hcols)
    constructor
    · intro hy
      rw [ha, alphaAt, if_neg (by push_neg; omega)]
    · intro hy
      rw [ha, alphaAt, if_pos (Or.inr hy)]

/-- C3 witness: in a 1 x 1 significant image decoded from a 2 x 2 tile,
the write at global (1, 0) (first padding column) carries alpha 0. -/
theorem c3_blocked_alpha_witness :
    (((1, 0), Rgba.mk 6 6 6 0) ∈
      blockedWritesMono (ImageWrapper.mk 1 1 .MONO 1 8 1 2 2 2 [] [])
        [5, 6, 7, 8] (BlockInfo.mk 0 0 2 2)) ∧
    (Rgba.mk 6 6 6 0).a =
      (if (ImageWrapper.mk 1 1 .MONO 1 8 1 2 2 2 [] []).ncols ≤ 1 ∨
          (ImageWrapper.mk 1 1 .MONO 1 8 1 2 2 2 [] []).nrows ≤ 0
        then 0 else 255) :=
  ⟨by decide, (c3_blocked_alpha _ [5, 6, 7, 8] (BlockInfo.mk 0 0 2 2)
    ((1, 0), Rgba.mk 6 6 6 0)).1 (by decide)⟩

/-- C10 witness: decoding one mono byte into a 2 x 2 raster leaves the
never-written pixel (1, 1) transparent black. -/
theorem c10_untouched_pixels_transparent_witness :
    ((1, 1) : Coord) ∉ touched (ImageWrapper.mk 2 2 .MONO 1 8 1 1 0 0 [] [7]) ∧
    decodedImage (ImageWrapper.mk 2 2 .MONO 1 8 1 1 0 0 [] [7]) (1, 1) =
      transparentBlack :=
  ⟨by decide, c10_untouched_pixels_transparent _ _ (by decide)⟩

/-- C1: in an unblocked decode (nbpr = nbpc = 1, 8 bits per pixel), raw
sample i lands on the single output pixel (i mod ncols, i div ncols) with
alpha 255: as (v, v, v, 255) for mono, as the unreordered triplet
(r, g, b, 255) for RGB, and as (lut[0][v], lut[1][v], lut[2][v], 255)
through band 0's lookup tables for palette data. -/
theorem c1_unblocked_decode (w : ImageWrapper) (i : ℕ) (hpr : w.nbpr = 1)
    (hpc : w.nbpc = 1) (h8 : w.nbpp = 8) :
    (w.irep = .MONO → i < min w.data.length (w.ncols * w.nrows) →
      decodedImage w (i % w.ncols, i / w.ncols) =
        ⟨w.data.getD i 0, w.data.getD i 0, w.data.getD i 0, 255⟩) ∧
    (w.irep = .RGB → 3 * i + 2 < w.data.length → i < w.ncols * w.nrows →
      decodedImage w (i % w.ncols, i / w.ncols) =
        ⟨w.data.getD (3 * i) 0, w.data.getD (3 * i + 1) 0,
          w.data.getD (3 * i + 2) 0, 255⟩) ∧
    (w.irep = .RGBLUT → i < min w.data.length (w.ncols * w.nrows) →
      decodedImage w (i % w.ncols, i / w.ncols) =
        ⟨lutAt w 0 (w.data.getD i 0), lutAt w 1 (w.data.getD i 0),
          lutAt w 2 (w.data.getD i 0), 255⟩) := by
  refine ⟨?_, ?_, ?_⟩
  · intro hm hi
    have hread : read_image w =
        .ok ((w.ncols, w.nrows), monoWrites w.data w.ncols w.nrows) := by
      rw [read_image_unblocked w hpr hpc h8, hm]
    rw [decodedImage, hread]
    refine applyWrites_get_unique _ i _ _ _
      (monoWrites_get? w.data w.ncols w.nrows i hi) ?_
    intro m e hme hfst
    have hshape := monoWrites_shape w.data w.ncols w.nrows m e hme
    rw [hshape] at hfst
    have h1 := congrArg Prod.fst hfst
    have h2 := congrArg Prod.snd hfst
    exact rowMajor_inj w.ncols m i h1 h2
  · intro hm h3 hi
    have hread : read_image w =
        .ok ((w.ncols, w.nrows), rgbWrites w.data w.ncols w.nrows) := by
      rw [read_image_unblocked w hpr hpc h8, hm]
    rw [decodedImage, hread]
    refine applyWrites_get_unique _ i _ _ _
      (rgbWrites_get? w.data w.ncols w.nrows i h3 hi) ?_
    intro m e hme hfst
    have hshape := rgbWrites_shape w.data w.ncols w.nrows m e hme
    rw [hshape] at hfst
    have h1 := congrArg Prod.fst hfst
    have h2 := congrArg Prod.snd hfst
    exact rowMajor_inj w.ncols m i h1 h2
  · intro hm hi
    have hread : read_image w =
        .ok ((w.ncols, w.nrows), rgbLutWrites w w.ncols w.nrows) := by
      rw [read_image_unblocked w hpr hpc h8, hm]
    rw [decodedImage, hread]
    refine applyWrites_get_unique _ i _ _ _
      (rgbLutWrites_get? w w.ncols w.nrows i hi) ?_
    intro m e hme hfst
    have hshape := rgbLutWrites_shape w w.ncols w.nrows m e hme
    rw [hshape] at hfst
    have h1 := congrArg Prod.fst hfst
    have h2 := congrArg Prod.snd hfst
    exact rowMajor_inj w.ncols m i h1 h2

/-- C1 witness: a mono byte 7 decodes to (7, 7, 7, 255); the RGB triplet
(9, 8, 7) decodes unreordered with alpha 255; palette index 0 decodes
through band 0's three tables to (10, 20, 30, 255). -/
theorem c1_unblocked_decode_witness :
    decodedImage (ImageWrapper.mk 2 2 .MONO 1 8 1 1 0 0 [] [7]) (0, 0) =
      ⟨7, 7, 7, 255⟩ ∧
    decodedImage (ImageWrapper.mk 1 1 .RGB 3 8 1 1 0 0 [] [9, 8, 7]) (0, 0) =
      ⟨9, 8, 7, 255⟩ ∧
    decodedImage (ImageWrapper.mk 1 1 .RGBLUT 1 8 1 1 0 0
        [[10], [20], [30]] [0]) (0, 0) =
      ⟨10, 20, 30, 255⟩ := by
  refine ⟨?_, ?_, ?_⟩
  · exact (c1_unblocked_decode (ImageWrapper.mk 2 2 .MONO 1 8 1 1 0 0 [] [7])
      0 rfl rfl rfl).1 rfl (by decide)
  · exact (c1_unblocked_decode
      (ImageWrapper.mk 1 1 .RGB 3 8 1 1 0 0 [] [9, 8, 7])
      0 rfl rfl rfl).2.1 rfl (by decide) (by decide)
  · exact (c1_unblocked_decode
      (ImageWrapper.mk 1 1 .RGBLUT 1 8 1 1 0 0 [[10], [20], [30]] [0])
      0 rfl rfl rfl).2.2 rfl (by decide)

theorem blockedWritesMono_get? (w : ImageWrapper) (chunk : List ℕ)
    (b : BlockInfo) (i j : ℕ) (hi : i < b.width) (hj : j < b.height)
    (hlen : i + j * b.width < chunk.length) :
    (blockedWritesMono w chunk b).get? (i + j * b.width) =
      some ((b.x + i, b.y + j),
        ⟨chunk.getD (i + j * b.width) 0, chunk.getD (i + j * b.width) 0,
          chunk.getD (i + j * b.width) 0,
          alphaAt w (b.x + i) (b.y + j)⟩) := by
  have hw : 0 < b.width := by omega
  have hp : i + j * b.width < b.width * b.height := by
    have h1 : i + j * b.width < (j + 1) * b.width := by
      rw [Nat.succ_mul]
      omega
    have h2 : (j + 1) * b.width ≤ b.height * b.width :=
      Nat.mul_le_mul_right _ (by omega)
    calc i + j * b.width < (j + 1) * b.width := h1
      _ ≤ b.height * b.width := h2
      _ = b.width * b.height := Nat.mul_comm _ _
  have hbi : (blockIter b).get? (i + j * b.width) =
      some (b.x + i, b.y + j) := by
    rw [blockIter, List.get?_map, List.get?_range hp]
    have hmod : (i + j * b.width) % b.width = i := by
      rw [Nat.add_mul_mod_self_right, Nat.mod_eq_of_lt hi]
    have hdiv : (i + j * b.width) / b.width = j := by
      rw [Nat.add_mul_div_right _ _ hw, Nat.div_eq_of_lt hi]
      omega
    simp only [Option.map_some', hmod, hdiv]
  have hchunk : chunk.get? (i + j * b.width) =
      some (chunk.getD (i + j * b.width) 0) := get?_eq_getD_of_lt _ _ hlen
  rw [blockedWritesMono, List.get?_map,
    (List.get?_zip_eq_some chunk (blockIter b)
      (chunk.getD (i + j * b.width) 0, (b.x + i, b.y + j))
      (i + j * b.width)).2 ⟨hchunk, hbi⟩]
  rfl

/-- C5: the blocked decode cuts the raw buffer into consecutive chunks of
exactly bytes-per-pixel x block-width x block-height x band-count bytes
(chunk k is the bytes from offset k x chunk-size); tile k sits at block
column k mod nbpr and block row k div nbpr; and within a tile the local
pixel (i, j) is written at global coordinate
(block-x x block-width + i, block-y x block-height + j). -/
theorem c5_blocked_chunking (w : ImageWrapper) (k i j : ℕ)
    (chunk : List ℕ) :
    (0 < w.nbpp / 8 * w.nppbh * w.nppbv * w.nbands →
      (k + 1) * (w.nbpp / 8 * w.nppbh * w.nppbv * w.nbands) ≤
        w.data.length →
      (chunksExact (w.nbpp / 8 * w.nppbh * w.nppbv * w.nbands)
          w.data).get? k =
        some ((w.data.drop
          (k * (w.nbpp / 8 * w.nppbh * w.nppbv * w.nbands))).take
            (w.nbpp / 8 * w.nppbh * w.nppbv * w.nbands))) ∧
    (k < w.nbpr * w.nbpc →
      (blockInfos w).get? k =
        some ⟨(k % w.nbpr) * w.nppbh, (k / w.nbpr) * w.nppbv,
          w.nppbh, w.nppbv⟩) ∧
    (i < w.nppbh → j < w.nppbv → i + j * w.nppbh < chunk.length →
      (blockedWritesMono w chunk
          ⟨(k % w.nbpr) * w.nppbh, (k / w.nbpr) * w.nppbv,
            w.nppbh, w.nppbv⟩).get? (i + j * w.nppbh) =
        some (((k % w.nbpr) * w.nppbh + i, (k / w.nbpr) * w.nppbv + j),
          ⟨chunk.getD (i + j * w.nppbh) 0, chunk.getD (i + j * w.nppbh) 0,
            chunk.getD (i + j * w.nppbh) 0,
            alphaAt w ((k % w.nbpr) * w.nppbh + i)
              ((k / w.nbpr) * w.nppbv + j)⟩)) := by
  refine ⟨?_, ?_, ?_⟩
  · intro hcs hk
    rw [chunksExact_get? _ hcs, if_pos hk]
  · intro hk
    rw [blockInfos, List.get?_map, List.get?_range hk]
    rfl
  · intro hi hj hlen
    exact blockedWritesMono_get? w chunk _ i j hi hj hlen

/-- C5 witness: with 8 bits per pixel, 2 x 1 pixel tiles, one band and a
2 x 1 block grid over [1,2,3,4], chunk 1 is [3,4], tile 1 sits at block
column 1 (x = 2), and its local pixel (1, 0) is written at global (3, 0)
with the sample value 4. -/
theorem c5_blocked_chunking_witness :
    (chunksExact 2 [1, 2, 3, 4]).get? 1 = some [3, 4] ∧
    (blockInfos (ImageWrapper.mk 1 3 .MONO 1 8 1 2 2 1 [] [1, 2, 3, 4])).get?
      1 = some ⟨2, 0, 2, 1⟩ ∧
    (blockedWritesMono (ImageWrapper.mk 1 3 .MONO 1 8 1 2 2 1 [] [1, 2, 3, 4])
        [3, 4] ⟨2, 0, 2, 1⟩).get? 1 =
      some ((3, 0), ⟨4, 4, 4,
        alphaAt (ImageWrapper.mk 1 3 .MONO 1 8 1 2 2 1 [] [1, 2, 3, 4])
          3 0⟩) := by
  refine ⟨?_, ?_, ?_⟩
  · exact (c5_blocked_chunking (ImageWrapper.mk 1 3 .MONO 1 8 1 2 2 1 []
      [1, 2, 3, 4]) 1 1 0 [3, 4]).1 (by decide) (by decide)
  · exact (c5_blocked_chunking (ImageWrapper.mk 1 3 .MONO 1 8 1 2 2 1 []
      [1, 2, 3, 4]) 1 1 0 [3, 4]).2.1 (by decide)
  · exact (c5_blocked_chunking (ImageWrapper.mk 1 3 .MONO 1 8 1 2 2 1 []
      [1, 2, 3, 4]) 1 1 0 [3, 4]).2.2 (by decide) (by decide) (by decide)

/-- C6: `Pedf::init` computes the mean as the sum of the amplitudes of
exactly the finite-amplitude samples divided by the total count
rows x cols, and returns eps = 1e-5,
slope = (255 - 30) / log10(c_high / c_low) and
constant = 30 - slope * log10(c_low) for c_low = 0.8 x mean,
c_high = 40 x c_low; for a buffer of uniform finite amplitude a the mean
equals a. -/
theorem c6_pedf_init (samples : List C32) (r c : ℕ)
    (hlen : samples.length = r * c) :
    Pedf.init samples r c =
      { eps := .fin 1e-5,
        slope := .fin ((255 - 30) /
          Real.logb 10 ((40 * (0.8 * (finiteAmpSum samples /
            ((r * c : ℕ) : ℝ)))) /
            (0.8 * (finiteAmpSum samples / ((r * c : ℕ) : ℝ))))),
        constant := .fin (30 - ((255 - 30) /
          Real.logb 10 ((40 * (0.8 * (finiteAmpSum samples /
            ((r * c : ℕ) : ℝ)))) /
            (0.8 * (finiteAmpSum samples / ((r * c : ℕ) : ℝ))))) *
          Real.logb 10 (0.8 * (finiteAmpSum samples /
            ((r * c : ℕ) : ℝ)))) } ∧
    (∀ a : ℝ, 0 < r * c → (∀ z ∈ samples, amplitude z = .fin a) →
      finiteAmpSum samples / ((r * c : ℕ) : ℝ) = a) := by
  constructor
  · simp only [Pedf.init]
    rw [foldl_addSome (fun z =>
      match amplitude z with
      | .fin a => some a
      | .nan => none) samples 0]
    rw [zero_add]
    rfl
  · intro a hpos hu
    rw [finiteAmpSum_uniform a samples hu, hlen]
    exact mul_div_cancel_left₀ a (Nat.cast_ne_zero.2 (by omega))

/-- C6 witness: the single-sample buffer of amplitude 0 satisfies the
uniformity hypotheses and its mean is 0. -/
theorem c6_pedf_init_witness :
    ([((F32.fin 0, F32.fin 0) : C32)].length = 1 * 1) ∧
    ((0 : ℕ) < 1 * 1) ∧
    (∀ z ∈ [((F32.fin 0, F32.fin 0) : C32)], amplitude z = .fin 0) ∧
    finiteAmpSum [((F32.fin 0, F32.fin 0) : C32)] / ((1 * 1 : ℕ) : ℝ) =
      0 := by
  have hu : ∀ z ∈ [((F32.fin 0, F32.fin 0) : C32)],
      amplitude z = .fin 0 := by
    intro z hz
    rw [List.mem_singleton] at hz
    subst hz
    show F32.fin (Real.sqrt ((0 : ℝ) ^ 2 + (0 : ℝ) ^ 2)) = F32.fin 0
    have hs : Real.sqrt ((0 : ℝ) ^ 2 + (0 : ℝ) ^ 2) = 0 := by
      norm_num
    rw [hs]
  exact ⟨rfl, by norm_num, hu,
    (c6_pedf_init [((F32.fin 0, F32.fin 0) : C32)] 1 1 rfl).2 0
      (by norm_num) hu⟩

/-- C7: `Pedf::remap` computes
density = slope * max(amplitude z, eps) + constant, takes density when
density <= 127 and 0.5 * (density + 127) otherwise (a NaN density fails
the comparison and stays NaN), and the Rust `as u8` narrowing of that
piecewise value coincides with the spec's explicit
clamp-to-[0,255]-then-truncate on every input, including out-of-range
and non-finite densities. -/
theorem c7_remap_clamp_truncate (p : Pedf) (z : C32) :
    p.remap z = clampThenTruncate (remapValue p z) ∧
    remapValue p z =
      (match p.density_call z with
       | .fin v => if v ≤ 127 then F32.fin v else F32.fin (0.5 * (v + 127))
       | .nan => F32.nan) ∧
    p.density_call z =
      F32.add (F32.mul p.slope (F32.fmax (amplitude z) p.eps)) p.constant :=
  ⟨f32_as_u8_eq_clampThenTruncate _, rfl, rfl⟩

theorem boxBoth_const (pedf : Pedf) (stack : ℕ → ℕ → C32) (b t l r k : ℕ)
    (hk : ∀ x y, pedf.remap (stack x y) = k) (hk255 : k ≤ 255)
    (hbt : b < t) (hlr : l < r) : boxBoth pedf stack b t l r = k := by
  simp only [boxBoth, hk, sum_map_const_real]
  have hA : ((t - b : ℕ) : ℝ) ≠ 0 := Nat.cast_ne_zero.2 (by omega)
  have hB : ((r - l : ℕ) : ℝ) ≠ 0 := Nat.cast_ne_zero.2 (by omega)
  rw [Nat.cast_mul]
  rw [show ((t - b : ℕ) : ℝ) * (((r - l : ℕ) : ℝ) * (k : ℝ)) /
      (((t - b : ℕ) : ℝ) * ((r - l : ℕ) : ℝ)) = (k : ℝ) by
    field_simp
    ring]
  exact f32_as_u8_natCast k hk255

theorem boxRows_const (pedf : Pedf) (stack : ℕ → ℕ → C32) (b t l k : ℕ)
    (leftf rightf : ℝ) (hk : ∀ x y, pedf.remap (stack x y) = k)
    (hk255 : k ≤ 255) (hbt : b < t) :
    boxRows pedf stack b t l leftf rightf = k := by
  simp only [boxRows, hk, sum_map_const_nat]
  have hA : ((t - b : ℕ) : ℝ) ≠ 0 := Nat.cast_ne_zero.2 (by omega)
  rw [show (1 - (fract leftf + fract rightf) / 2) / ((t - b : ℕ) : ℝ) *
      (((t - b) * k : ℕ) : ℝ) + (fract leftf + fract rightf) / 2 /
      ((t - b : ℕ) : ℝ) * (((t - b) * k : ℕ) : ℝ) = (k : ℝ) by
    push_cast
    field_simp
    ring]
  exact f32_as_u8_natCast k hk255

theorem boxCols_const (pedf : Pedf) (stack : ℕ → ℕ → C32) (b l r k : ℕ)
    (topf bottomf : ℝ) (hk : ∀ x y, pedf.remap (stack x y) = k)
    (hk255 : k ≤ 255) (hlr : l < r) :
    boxCols pedf stack b l r topf bottomf = k := by
  simp only [boxCols, hk, sum_map_const_nat]
  have hA : ((r - l : ℕ) : ℝ) ≠ 0 := Nat.cast_ne_zero.2 (by omega)
  rw [show (1 - (fract topf + fract bottomf) / 2) / ((r - l : ℕ) : ℝ) *
      (((r - l) * k : ℕ) : ℝ) + (fract topf + fract bottomf) / 2 /
      ((r - l : ℕ) : ℝ) * (((r - l) * k : ℕ) : ℝ) = (k : ℝ) by
    push_cast
    field_simp
    ring]
  exact f32_as_u8_natCast k hk255

theorem boxNeither_const (pedf : Pedf) (stack : ℕ → ℕ → C32) (b l k : ℕ)
    (topf bottomf leftf rightf : ℝ)
    (hk : ∀ x y, pedf.remap (stack x y) = k) (hk255 : k ≤ 255) :
    boxNeither pedf stack b l topf bottomf leftf rightf = k := by
  simp only [boxNeither, hk]
  rw [show (1 - (fract leftf + fract rightf) / 2) *
      ((fract topf + fract bottomf) / 2) * (k : ℝ) +
      (fract leftf + fract rightf) / 2 *
      ((fract topf + fract bottomf) / 2) * (k : ℝ) +
      (1 - (fract leftf + fract rightf) / 2) *
      (1 - (fract topf + fract bottomf) / 2) * (k : ℝ) +
      (fract leftf + fract rightf) / 2 *
      (1 - (fract topf + fract bottomf) / 2) * (k : ℝ) = (k : ℝ) by
    ring]
  exact f32_as_u8_natCast k hk255

/-- C8: if the remap of every source sample is one and the same byte k,
every output pixel of the down-sampler equals k exactly, in all four
coverage cases. -/
theorem c8_uniform_downsample (pedf : Pedf) (stack : ℕ → ℕ → C32)
    (n_rows n_cols : ℕ) (xRat yRat : ℝ) (outy outx k : ℕ)
    (hk : ∀ x y, pedf.remap (stack x y) = k) :
    downsamplePixel pedf stack n_rows n_cols xRat yRat outy outx = k := by
  have hk255 : k ≤ 255 := by
    have h := remap_le_255 pedf (stack 0 0)
    rw [hk 0 0] at h
    exact h
  simp only [downsamplePixel]
  have hBT : Min.min ⌈(outy : ℝ) * yRat⌉₊ (n_rows - 1) ≤
      Min.min (Max.max ⌈(outy : ℝ) * yRat + yRat⌉₊
        (Min.min ⌈(outy : ℝ) * yRat⌉₊ (n_rows - 1))) n_rows :=
    le_min (le_max_right _ _)
      (le_trans (min_le_right _ _) (Nat.sub_le _ _))
  have hLR : Min.min ⌈(outx : ℝ) * xRat⌉₊ (n_cols - 1) ≤
      Min.min (Max.max ⌈(outx : ℝ) * xRat + xRat⌉₊
        (Min.min ⌈(outx : ℝ) * xRat⌉₊ (n_cols - 1))) n_cols :=
    le_min (le_max_right _ _)
      (le_trans (min_le_right _ _) (Nat.sub_le _ _))
  split_ifs with h1 h2 h3
  · exact boxBoth_const pedf stack _ _ _ _ k hk hk255
      (lt_of_le_of_ne hBT h1.1) (lt_of_le_of_ne hLR h1.2)
  · exact boxRows_const pedf stack _ _ _ k _ _ hk hk255
      (lt_of_le_of_ne hBT h2)
  · exact boxCols_const pedf stack _ _ _ k _ _ hk hk255
      (lt_of_le_of_ne hLR h3)
  · exact boxNeither_const pedf stack _ _ k _ _ _ _ hk hk255

/-- C8 witness: with the zero calibration every sample remaps to the
byte 0, and the 1 x 1 down-sample of a 2 x 2 mosaic returns 0. -/
theorem c8_uniform_downsample_witness :
    (∀ x y : ℕ, Pedf.remap (Pedf.mk (.fin 0) (.fin 0) (.fin 0))
      ((fun _ _ => ((F32.fin 0, F32.fin 0) : C32)) x y) = 0) ∧
    downsamplePixel (Pedf.mk (.fin 0) (.fin 0) (.fin 0))
      (fun _ _ => ((F32.fin 0, F32.fin 0) : C32)) 2 2 2 2 0 0 = 0 := by
  have hamp : amplitude ((F32.fin 0, F32.fin 0) : C32) = .fin 0 := by
    show F32.fin (Real.sqrt ((0 : ℝ) ^ 2 + (0 : ℝ) ^ 2)) = F32.fin 0
    have hs : Real.sqrt ((0 : ℝ) ^ 2 + (0 : ℝ) ^ 2) = 0 := by norm_num
    rw [hs]
  have hk : ∀ x y : ℕ, Pedf.remap (Pedf.mk (.fin 0) (.fin 0) (.fin 0))
      ((fun _ _ => ((F32.fin 0, F32.fin 0) : C32)) x y) = 0 := by
    intro x y
    have hd : (Pedf.mk (.fin 0) (.fin 0) (.fin 0)).density_call
        ((F32.fin 0, F32.fin 0) : C32) = .fin 0 := by
      rw [Pedf.density_call, hamp]
      show F32.add (F32.mul (F32.fin 0) (F32.fmax (F32.fin 0) (F32.fin 0)))
        (F32.fin 0) = F32.fin 0
      simp [F32.fmax, F32.mul, F32.add]
    show f32_as_u8 (remapValue (Pedf.mk (.fin 0) (.fin 0) (.fin 0))
      ((F32.fin 0, F32.fin 0) : C32)) = 0
    rw [remapValue, hd]
    show f32_as_u8 (if (0 : ℝ) ≤ 127 then F32.fin 0
      else F32.fin (0.5 * (0 + 127))) = 0
    rw [if_pos (by norm_num : (0 : ℝ) ≤ 127)]
    have h0 := f32_as_u8_natCast 0 (by norm_num)
    simpa using h0
  exact ⟨hk, c8_uniform_downsample _ _ 2 2 2 2 0 0 0 hk⟩

theorem segMeanTerm_fin (s : List C32) (hs : s ≠ [])
    (hfin : ∀ z ∈ s, (amplitude z).isFinite = true) :
    segMeanTerm s = .fin (segMeanVal s) := by
  have hall : ∀ x ∈ s.map amplitude, x.isFinite = true := by
    intro x hx
    obtain ⟨z, hz, rfl⟩ := List.mem_map.1 hx
    exact hfin z hz
  rw [segMeanTerm, foldl_F32add_fin (s.map amplitude) hall 0]
  have hlen : ((s.length : ℝ)) ≠ 0 :=
    Nat.cast_ne_zero.2 (by
      intro h0
      exact hs (List.length_eq_zero.1 h0))
  simp only [F32.div]
  rw [if_neg hlen, zero_add, List.map_map]
  rfl

/-- C9 counterexample: for segments of sizes 1 and 2 with amplitudes 0 and
3, `woof.rs::run` computes the mean of the per-segment means, 3/2, while
the combined (pooled) mean of the spec's §4.2 definition is 2 — so the
mosaic calibration is not computed from the combined mean. -/
theorem c9_counterexample_mean :
    woofMean [[((F32.fin 0, F32.fin 0) : C32)],
      [((F32.fin 3, F32.fin 0) : C32), ((F32.fin 3, F32.fin 0) : C32)]] =
      .fin (3 / 2) ∧
    specCombinedMean [[((F32.fin 0, F32.fin 0) : C32)],
      [((F32.fin 3, F32.fin 0) : C32), ((F32.fin 3, F32.fin 0) : C32)]] =
      2 ∧
    (3 / 2 : ℝ) ≠ 2 := by
  have h0 : amplitude ((F32.fin 0, F32.fin 0) : C32) = .fin 0 := by
    show F32.fin (Real.sqrt ((0 : ℝ) ^ 2 + (0 : ℝ) ^ 2)) = F32.fin 0
    have hs : Real.sqrt ((0 : ℝ) ^ 2 + (0 : ℝ) ^ 2) = 0 := by norm_num
    rw [hs]
  have h3 : amplitude ((F32.fin 3, F32.fin 0) : C32) = .fin 3 := by
    show F32.fin (Real.sqrt ((3 : ℝ) ^ 2 + (0 : ℝ) ^ 2)) = F32.fin 3
    have hs : Real.sqrt ((3 : ℝ) ^ 2 + (0 : ℝ) ^ 2) = 3 := by
      rw [show ((3 : ℝ) ^ 2 + (0 : ℝ) ^ 2) = 3 ^ 2 by norm_num]
      exact Real.sqrt_sq (by norm_num)
    rw [hs]
  refine ⟨?_, ?_, by norm_num⟩
  · simp only [woofMean, segMeanTerm, List.map_cons, List.map_nil,
      List.foldl_cons, List.foldl_nil, h0, h3, F32.add, F32.div,
      List.length_cons, List.length_nil]
    norm_num
  · simp only [specCombinedMean, finiteAmpSum, List.flatten,
      List.filterMap_cons, List.filterMap_nil, h0, h3, List.map_cons,
      List.map_nil, List.length_cons, List.length_nil, List.sum_cons,
      List.sum_nil, List.append_nil, List.nil_append, List.cons_append]
    norm_num

/-- C9 (amended): the mosaic calibration is computed once from the
arithmetic mean of the per-segment mean amplitudes (each segment's
amplitude sum over its own sample count, with no finiteness filter), and
that single calibration `woofCalibration segs` is reused, unmodified,
for every output pixel of the resampled raster. -/
theorem c9_global_calibration_reuse (segs : List (List C32))
    (stack : ℕ → ℕ → C32) (n_rows n_cols : ℕ) (xRat yRat : ℝ)
    (out_rows out_cols oy ox : ℕ)
    (hoy : oy < out_rows) (hox : ox < out_cols)
    (hne : segs ≠ []) (hseg : ∀ s ∈ segs, s ≠ [])
    (hfin : ∀ s ∈ segs, ∀ z ∈ s, (amplitude z).isFinite = true) :
    (((woofRunGrid segs stack n_rows n_cols xRat yRat out_rows
        out_cols).get? oy).bind fun row => row.get? ox) =
      some (downsamplePixel (woofCalibration segs) stack n_rows n_cols
        xRat yRat oy ox) ∧
    woofMean segs = .fin ((segs.map segMeanVal).sum / (segs.length : ℝ)) := by
  constructor
  · simp only [woofRunGrid]
    rw [List.get?_map, List.get?_range hoy]
    simp only [Option.map_some', Option.some_bind]
    rw [List.get?_map, List.get?_range hox]
    rfl
  · have hterm : ∀ s ∈ segs, segMeanTerm s = .fin (segMeanVal s) :=
      fun s hs => segMeanTerm_fin s (hseg s hs) (hfin s hs)
    have hterm2 : ∀ s ∈ segs, (segMeanTerm s).isFinite = true := by
      intro s hs
      rw [hterm s hs]
      rfl
    rw [woofMean, foldl_F32add_term segMeanTerm segs hterm2 0]
    have hlen : ((segs.length : ℝ)) ≠ 0 :=
      Nat.cast_ne_zero.2 (by
        intro h0
        exact hne (List.length_eq_zero.1 h0))
    simp only [F32.div]
    rw [if_neg hlen, zero_add]
    have hmaps : (segs.map fun s => (segMeanTerm s).val) =
        segs.map segMeanVal := by
      apply List.map_congr_left
      intro s hs
      rw [hterm s hs]
      rfl
    rw [hmaps]

/-- C9 witness: the two-segment mosaic with amplitudes [[0], [3, 3]]
satisfies the hypotheses, its 1 x 1 output grid entry (0, 0) is computed
from the single calibration, and its mean is the mean of the per-segment
means. -/
theorem c9_global_calibration_reuse_witness :
    (((woofRunGrid [[((F32.fin 0, F32.fin 0) : C32)],
        [((F32.fin 3, F32.fin 0) : C32), ((F32.fin 3, F32.fin 0) : C32)]]
        (fun _ _ => ((F32.fin 0, F32.fin 0) : C32)) 3 1 1 3 1 1).get?
          0).bind fun row => row.get? 0) =
      some (downsamplePixel (woofCalibration
        [[((F32.fin 0, F32.fin 0) : C32)],
          [((F32.fin 3, F32.fin 0) : C32), ((F32.fin 3, F32.fin 0) : C32)]])
        (fun _ _ => ((F32.fin 0, F32.fin 0) : C32)) 3 1 1 3 0 0) ∧
    woofMean [[((F32.fin 0, F32.fin 0) : C32)],
      [((F32.fin 3, F32.fin 0) : C32), ((F32.fin 3, F32.fin 0) : C32)]] =
      .fin (([[((F32.fin 0, F32.fin 0) : C32)],
        [((F32.fin 3, F32.fin 0) : C32),
          ((F32.fin 3, F32.fin 0) : C32)]].map segMeanVal).sum /
        ((2 : ℕ) : ℝ)) := by
  have hfin : ∀ s ∈ [[((F32.fin 0, F32.fin 0) : C32)],
      [((F32.fin 3, F32.fin 0) : C32), ((F32.fin 3, F32.fin 0) : C32)]],
      ∀ z ∈ s, (amplitude z).isFinite = true := by
    intro s hs z hz
    rcases List.mem_cons.1 hs with rfl | hs'
    · rw [List.mem_singleton] at hz
      subst hz
      rfl
    · rcases List.mem_cons.1 hs' with rfl | hs''
      · rcases List.mem_cons.1 hz with rfl | hz'
        · rfl
        · rw [List.mem_singleton] at hz'
          subst hz'
          rfl
      · simp at hs''
  have hseg : ∀ s ∈ [[((F32.fin 0, F32.fin 0) : C32)],
      [((F32.fin 3, F32.fin 0) : C32), ((F32.fin 3, F32.fin 0) : C32)]],
      s ≠ [] := by
    intro s hs
    rcases List.mem_cons.1 hs with rfl | hs'
    · simp
    · rcases List.mem_cons.1 hs' with rfl | hs''
      · simp
      · simp at hs''
  exact c9_global_calibration_reuse _ _ 3 1 1 3 1 1 0 0
    (by norm_num) (by norm_num) (by simp) hseg hfin
